import Mathlib

/-!
Verification of the alpaca-lunchbox trading toolkit core logic.

The definitions below are shallow embeddings of the Python sources:
`0sync_portfolio.py` (portfolio reconciliation), `db_utils.py` (position
updater), `1rsi_compare.py` (RSI calculation over pandas series), and
`2trade_executor.py` (allocation sizing).  Python dicts become association
lists, floats become rationals, pandas NaN entries become `Option` with
`none` for NaN, and a Python exception inside a `try` block is modelled by
an explicit `Bool`/`Option` result.
-/

namespace Lunchbox

/-- A portfolio row as stored in the `portfolio` table: quantity and
average entry price (`qty`, `avg_price`). -/
structure Pos where
  qty : ℤ
  avg_price : ℚ
deriving DecidableEq, Repr

/-- A symbol-keyed mapping `{symbol: (qty, avg_price)}`, embedding the
Python dicts built by `fetch_alpaca_positions` / `fetch_local_portfolio`.
Symbols are an arbitrary type with decidable equality. -/
abbrev Ledger (α : Type) := List (α × Pos)

/-- Dictionary access `d[s]` / `s in d` on the association-list embedding:
returns the value at the first occurrence of key `s`. -/
def lookupSym {α : Type} [DecidableEq α] (s : α) : Ledger α → Option Pos
  | [] => none
  | (k, v) :: rest => if k = s then some v else lookupSym s rest

/-- The epsilon `1e-6` used by `reconcile_portfolio` when comparing
average prices. -/
def eps : ℚ := 1 / 1000000

/-- The update condition from `reconcile_portfolio`:
`local_qty != qty or abs(local_avg - avg_price) > 1e-6`. -/
abbrev needsUpdate (lp ep : Pos) : Prop :=
  lp.qty ≠ ep.qty ∨ eps < |lp.avg_price - ep.avg_price|

/-- Update intents issued by `reconcile_portfolio`: for every symbol of the
Alpaca snapshot that is present locally and satisfies the update condition,
an intent carrying the old (local) and new (Alpaca) values. -/
def reconcileUpdates {α : Type} [DecidableEq α] (L E : Ledger α) :
    List (α × Pos × Pos) :=
  E.filterMap fun pr =>
    match lookupSym pr.1 L with
    | some lp => if needsUpdate lp pr.2 then some (pr.1, lp, pr.2) else none
    | none => none

/-- Insert intents issued by `reconcile_portfolio`: symbols of the Alpaca
snapshot that are absent from the local portfolio, with their Alpaca data. -/
def reconcileInserts {α : Type} [DecidableEq α] (L E : Ledger α) : Ledger α :=
  E.filter fun pr => (lookupSym pr.1 L).isNone

/-- Delete intents issued by `reconcile_portfolio`: local symbols no longer
present in the Alpaca snapshot (`set(local) - set(alpaca)`). -/
def reconcileDeletes {α : Type} [DecidableEq α] (L E : Ledger α) : List α :=
  (L.filter fun pr => (lookupSym pr.1 E).isNone).map Prod.fst

/-- `reconcile_portfolio` as an intent producer: the triple of update,
insert and delete intents computed from the local portfolio `L` and the
Alpaca snapshot `E`. -/
def reconcile_portfolio {α : Type} [DecidableEq α] (L E : Ledger α) :
    List (α × Pos × Pos) × Ledger α × List α :=
  (reconcileUpdates L E, reconcileInserts L E, reconcileDeletes L E)

/-- Applying the update intents of `reconcile_portfolio` to the local rows:
rows whose symbol survives in `E` are kept (overwritten with the Alpaca
data when the update condition holds), rows absent from `E` are dropped
(they receive delete intents). -/
def applyUpdates {α : Type} [DecidableEq α] : Ledger α → Ledger α → Ledger α
  | [], _ => []
  | (s, lp) :: rest, E =>
    match lookupSym s E with
    | some ep => (s, if needsUpdate lp ep then ep else lp) :: applyUpdates rest E
    | none => applyUpdates rest E

/-- The local portfolio after one full reconciliation run against the
Alpaca snapshot `E`, with every intent applied successfully. -/
def applyReconcile {α : Type} [DecidableEq α] (L E : Ledger α) : Ledger α :=
  applyUpdates L E ++ E.filter fun pr => (lookupSym pr.1 L).isNone

/-- `fetch_alpaca_positions`: the `api.list_positions()` call either
returns a snapshot or raises; the surrounding `try`/`except` turns any
exception into the empty dict built before the loop ran. -/
def fetch_alpaca_positions {α : Type} (res : Except String (Ledger α)) :
    Ledger α :=
  match res with
  | .ok ps => ps
  | .error _ => []

/-- The string `"buy"` compared against `side` in
`update_portfolio_position`. -/
def buy : String := "buy"

/-- The string `"sell"` compared against `side` in
`update_portfolio_position`. -/
def sell : String := "sell"

/-- `update_portfolio_position` from `db_utils.py`, restricted to the row
of one symbol: `pos` is the current row (if any), the result is the
returned flag together with the row afterward.  The whole Python body is
wrapped in `try`/`except` returning `False`, so the ZeroDivisionError of
the weighted average at `old_qty + qty = 0` is modelled as
`(false, pos)` (no write). -/
def update_portfolio_position (pos : Option Pos) (qty : ℤ) (price : ℚ)
    (side : String) : Bool × Option Pos :=
  match pos with
  | some p =>
    if side = "buy" then
      if p.qty + qty = 0 then (false, pos)
      else
        (true, some ⟨p.qty + qty,
          ((p.qty : ℚ) * p.avg_price + (qty : ℚ) * price) /
            ((p.qty + qty : ℤ) : ℚ)⟩)
    else if side = "sell" then
      if p.qty - qty ≤ 0 then (true, none)
      else (true, some ⟨p.qty - qty, p.avg_price⟩)
    else (true, some p)
  | none =>
    if side = "buy" then (true, some ⟨qty, price⟩) else (true, none)

/-- The invariant of the `Position` data model: positive quantity and
non-negative average price. -/
abbrev PosOK (p : Pos) : Prop := 0 < p.qty ∧ 0 ≤ p.avg_price

/-- The weighting/threshold configuration read from
`config/strategy_config.json` by `trade_executor.py`. -/
structure AllocCfg where
  extreme : ℚ
  primary : ℚ
  baseline : ℚ
  extreme_multiplier : ℚ
  primary_multiplier : ℚ
deriving DecidableEq, Repr

/-- `calculate_allocation` from `2trade_executor.py`.  The quantity is
`int(dollars // price)`; Python float floor division raises
ZeroDivisionError when `price` is `0`, modelled as `none`. -/
def calculate_allocation (cfg : AllocCfg) (rsi_value price : ℚ) :
    Option (ℚ × ℤ) :=
  if rsi_value < cfg.extreme then
    let dollars := cfg.baseline * cfg.extreme_multiplier
    if price = 0 then none else some (dollars, ⌊dollars / price⌋)
  else if rsi_value < cfg.primary then
    let dollars := cfg.baseline * cfg.primary_multiplier
    if price = 0 then none else some (dollars, ⌊dollars / price⌋)
  else some (0, 0)

/-- Modelled from the spec: the target-dollar rule of the Allocation
Sizer stated in the spec's words (extreme threshold, then primary
threshold, else zero), to be compared with `calculate_allocation`. -/
def specTargetDollars (cfg : AllocCfg) (rsi_value : ℚ) : ℚ :=
  if rsi_value < cfg.extreme then cfg.baseline * cfg.extreme_multiplier
  else if rsi_value < cfg.primary then cfg.baseline * cfg.primary_multiplier
  else 0

/-- The concrete configuration of the spec's worked example:
extreme_low = 20, primary_low = 26, baseline = $1000,
extreme_multiplier = 2 (primary_multiplier = 1). -/
def cfgEx : AllocCfg := ⟨20, 26, 1000, 2, 1⟩

/-- `series.diff()` on the tail of a series: consecutive differences,
given the previous element. -/
def diffAux (prev : ℚ) : List ℚ → List (Option ℚ)
  | [] => []
  | y :: ys => some (y - prev) :: diffAux y ys

/-- `series.diff()`: elementwise `s[i] - s[i-1]` with NaN (`none`) at
index 0. -/
def diff : List ℚ → List (Option ℚ)
  | [] => []
  | x :: xs => none :: diffAux x xs

/-- One entry of `.rolling(window=p).mean()` at index `i`: NaN while the
window has not filled, NaN when the window contains a NaN (pandas counts
non-NaN observations against `min_periods = p`), else the mean of the
`p` trailing entries. -/
def rollAt (p : ℕ) (l : List (Option ℚ)) (i : ℕ) : Option ℚ :=
  if i + 1 < p then none
  else
    let w := (l.drop (i + 1 - p)).take p
    if w.all Option.isSome then some ((w.filterMap id).sum / (p : ℚ))
    else none

/-- `.rolling(window=p).mean()` over a whole series. -/
def rollingMean (p : ℕ) (l : List (Option ℚ)) : List (Option ℚ) :=
  (List.range l.length).map (rollAt p l)

/-- `delta.clip(lower=0)`: gains. -/
def clipGain (d : ℚ) : ℚ := max d 0

/-- `-delta.clip(upper=0)`: losses as positive magnitudes. -/
def clipLoss (d : ℚ) : ℚ := max (-d) 0

/-- The `gain` series of `rsi`: rolling mean of clipped deltas. -/
def gainList (s : List ℚ) (p : ℕ) : List (Option ℚ) :=
  rollingMean p ((diff s).map (Option.map clipGain))

/-- The `loss` series of `rsi`: rolling mean of negated clipped deltas. -/
def lossList (s : List ℚ) (p : ℕ) : List (Option ℚ) :=
  rollingMean p ((diff s).map (Option.map clipLoss))

/-- The pointwise tail of `rsi`: `rs = gain / loss` and
`100 - 100 / (1 + rs)` under IEEE float semantics on the non-negative
rolling means: a NaN operand propagates; `gain / 0` is `+inf` for positive
`gain`, collapsing the formula to exactly `100`; `0 / 0` is NaN. -/
def rsiPoint : Option ℚ → Option ℚ → Option ℚ
  | some g, some l =>
    if l = 0 then (if g = 0 then none else some 100)
    else some (100 - 100 / (1 + g / l))
  | _, _ => none

/-- `rsi` from `1rsi_compare.py`: RSI series of a closing-price series,
same length as the input, `none` marking NaN entries. -/
def rsi (s : List ℚ) (p : ℕ) : List (Option ℚ) :=
  List.zipWith rsiPoint (gainList s p) (lossList s p)

/-- The delta `s[j] - s[j-1]` read off a series with default `0` out of
range (only used at in-range indices `1 ≤ j < s.length`). -/
def deltaD (s : List ℚ) (j : ℕ) : ℚ := s.getD j 0 - s.getD (j - 1) 0

theorem lookupSym_isSome_of_mem {α : Type} [DecidableEq α] {s : α} {v : Pos}
    {l : Ledger α} (h : (s, v) ∈ l) : (lookupSym s l).isSome := by
  induction l with
  | nil => simp at h
  | cons kv rest ih =>
    rcases List.mem_cons.mp h with h1 | h2
    · rw [← h1]
      simp [lookupSym]
    · obtain ⟨k, w⟩ := kv
      by_cases hk : k = s
      · simp [lookupSym, hk]
      · simpa [lookupSym, hk] using ih h2

theorem mem_of_lookupSym {α : Type} [DecidableEq α] {s : α} {v : Pos}
    {l : Ledger α} (h : lookupSym s l = some v) : (s, v) ∈ l := by
  induction l with
  | nil => simp [lookupSym] at h
  | cons kv rest ih =>
    obtain ⟨k, w⟩ := kv
    by_cases hk : k = s
    · subst hk
      simp [lookupSym] at h
      subst h
      exact List.mem_cons_self _ _
    · simp only [lookupSym, if_neg hk] at h
      exact List.mem_cons_of_mem _ (ih h)

theorem lookupSym_eq_of_mem_nodup {α : Type} [DecidableEq α] {l : Ledger α}
    (hn : (l.map Prod.fst).Nodup) {s : α} {v : Pos} (h : (s, v) ∈ l) :
    lookupSym s l = some v := by
  induction l with
  | nil => simp at h
  | cons kv rest ih =>
    obtain ⟨k, w⟩ := kv
    simp only [List.map_cons, List.nodup_cons] at hn
    rcases List.mem_cons.mp h with h1 | h2
    · injection h1 with hs hv
      subst hs; subst hv
      simp [lookupSym]
    · have hk : ¬(k = s) := by
        intro hks
        subst hks
        exact hn.1 (List.mem_map.mpr ⟨(k, v), h2, rfl⟩)
      simp only [lookupSym, if_neg hk]
      exact ih hn.2 h2

theorem lookupSym_append {α : Type} [DecidableEq α] (s : α)
    (l₁ l₂ : Ledger α) :
    lookupSym s (l₁ ++ l₂) = (lookupSym s l₁).or (lookupSym s l₂) := by
  induction l₁ with
  | nil => simp [lookupSym]
  | cons kv rest ih =>
    obtain ⟨k, w⟩ := kv
    by_cases hk : k = s <;> simp [lookupSym, hk, ih]

theorem lookupSym_filter_key {α : Type} [DecidableEq α] (q : α → Bool)
    (l : Ledger α) (s : α) :
    lookupSym s (l.filter fun pr => q pr.1)
      = if q s then lookupSym s l else none := by
  induction l with
  | nil => simp [lookupSym]
  | cons kv rest ih =>
    obtain ⟨k, w⟩ := kv
    by_cases hk : k = s
    · subst hk
      cases hq : q k <;> simp [List.filter_cons, hq, lookupSym, ih]
    · cases hq : q k <;> simp [List.filter_cons, hq, lookupSym, hk, ih]

theorem applyUpdates_lookupSym {α : Type} [DecidableEq α] (L E : Ledger α)
    (s : α) :
    lookupSym s (applyUpdates L E) =
      match lookupSym s L, lookupSym s E with
      | some lp, some ep => some (if needsUpdate lp ep then ep else lp)
      | _, _ => none := by
  induction L with
  | nil => cases lookupSym s E <;> rfl
  | cons kv rest ih =>
    obtain ⟨k, lp0⟩ := kv
    by_cases hk : k = s
    · subst hk
      cases hE2 : lookupSym k E with
      | some ep => simp [applyUpdates, hE2, lookupSym]
      | none =>
        simp only [applyUpdates, hE2, lookupSym, if_pos rfl]
        rw [ih, hE2]
        cases lookupSym k rest <;> rfl
    · cases hE2 : lookupSym k E with
      | some ep => simp [applyUpdates, hE2, lookupSym, hk, ih]
      | none => simp [applyUpdates, hE2, lookupSym, hk, ih]

theorem mem_applyUpdates {α : Type} [DecidableEq α] {L E : Ledger α}
    {x : α × Pos} (hx : x ∈ applyUpdates L E) :
    (lookupSym x.1 E).isSome ∧ (x ∈ E ∨ x ∈ L) := by
  induction L with
  | nil => simp [applyUpdates] at hx
  | cons kv rest ih =>
    obtain ⟨k, lp0⟩ := kv
    cases hE2 : lookupSym k E with
    | some ep =>
      simp only [applyUpdates, hE2] at hx
      rcases List.mem_cons.mp hx with h1 | h2
      · subst h1
        refine ⟨by simp [hE2], ?_⟩
        by_cases hnu : needsUpdate lp0 ep
        · exact Or.inl (by simpa [hnu] using mem_of_lookupSym hE2)
        · exact Or.inr (by simp [hnu])
      · exact ⟨(ih h2).1, (ih h2).2.imp id (List.mem_cons_of_mem _)⟩
    | none =>
      simp only [applyUpdates, hE2] at hx
      exact ⟨(ih hx).1, (ih hx).2.imp id (List.mem_cons_of_mem _)⟩

/-- Claim C2: a buy fill on an existing position produces the
weighted-average cost basis and summed quantity; a buy fill with no
existing position creates the position at the fill data; and buying
10 shares at 100 then 10 at 200 yields quantity 20 at exactly 150. -/
theorem C2_buy_weighted_average (oq q : ℤ) (op pr : ℚ) (hoq : 0 < oq)
    (hq : 0 < q) :
    update_portfolio_position (some ⟨oq, op⟩) q pr buy
      = (true, some ⟨oq + q, ((oq : ℚ) * op + (q : ℚ) * pr) / ((oq + q : ℤ) : ℚ)⟩)
    ∧ update_portfolio_position none q pr buy = (true, some ⟨q, pr⟩)
    ∧ (update_portfolio_position
        (update_portfolio_position none 10 100 buy).2 10 200 buy).2
      = some ⟨20, 150⟩ := by
  have hne : ¬(oq + q = 0) := by omega
  refine ⟨?_, ?_, by norm_num [update_portfolio_position, buy]⟩
  · simp [update_portfolio_position, buy, hne]
  · simp [update_portfolio_position, buy]

/-- Witness for C2 at a concrete fill. -/
theorem C2_buy_weighted_average_witness :
    (0 : ℤ) < 5 ∧ (0 : ℤ) < 3 ∧
    (update_portfolio_position
        (update_portfolio_position none 10 100 buy).2 10 200 buy).2
      = some ⟨20, 150⟩ :=
  ⟨by decide, by decide,
    (C2_buy_weighted_average 5 3 50 80 (by decide) (by decide)).2.2⟩

/-- Claim C6: a sell fill covering the whole position (or more) deletes
the row entirely; a partial sell keeps the average price and subtracts
the quantity. -/
theorem C6_sell_close_or_reduce (oq q : ℤ) (op pr : ℚ) :
    (oq - q ≤ 0 →
      update_portfolio_position (some ⟨oq, op⟩) q pr sell = (true, none))
    ∧ (0 < oq - q →
      update_portfolio_position (some ⟨oq, op⟩) q pr sell
        = (true, some ⟨oq - q, op⟩)) := by
  constructor <;> intro h
  · simp [update_portfolio_position, sell, h]
  · have hne : ¬(oq - q ≤ 0) := by omega
    simp [update_portfolio_position, sell, hne]

/-- Witness for C6: selling 5 out of 5 deletes the row, selling 3 out of
7 keeps the average price. -/
theorem C6_sell_close_or_reduce_witness :
    ((5 : ℤ) - 5 ≤ 0 ∧
      update_portfolio_position (some ⟨5, 50⟩) 5 40 sell = (true, none))
    ∧ ((0 : ℤ) < 7 - 3 ∧
      update_portfolio_position (some ⟨7, 50⟩) 3 40 sell
        = (true, some ⟨7 - 3, 50⟩)) :=
  ⟨⟨by decide, (C6_sell_close_or_reduce 5 5 50 40).1 (by decide)⟩,
   ⟨by decide, (C6_sell_close_or_reduce 7 3 50 40).2 (by decide)⟩⟩

/-- Claim C5: for a positive price the sizer returns the spec's target
dollars (extreme multiplier below the extreme threshold, primary
multiplier below the primary threshold, else zero) and the floor of
target over price; the spec's worked examples evaluate as stated. -/
theorem C5_allocation_rule (cfg : AllocCfg) (r price : ℚ) (hpr : 0 < price) :
    calculate_allocation cfg r price
      = some (specTargetDollars cfg r, ⌊specTargetDollars cfg r / price⌋)
    ∧ calculate_allocation cfgEx 15 50 = some (2000, 40)
    ∧ calculate_allocation cfgEx 27 50 = some (0, 0) := by
  have h0 : ¬(price = 0) := by exact fun h => absurd (h ▸ hpr) (lt_irrefl 0)
  refine ⟨?_, by norm_num [calculate_allocation, cfgEx],
    by norm_num [calculate_allocation, cfgEx]⟩
  unfold calculate_allocation specTargetDollars
  split
  · simp [h0]
  · split
    · simp [h0]
    · simp

/-- Witness for C5 at a concrete configuration and price. -/
theorem C5_allocation_rule_witness :
    (0 : ℚ) < 50 ∧
    calculate_allocation cfgEx 27 50
      = some (specTargetDollars cfgEx 27, ⌊specTargetDollars cfgEx 27 / 50⌋) :=
  ⟨by decide, (C5_allocation_rule cfgEx 27 50 (by decide)).1⟩

/-- Claim C9 (code bug): with the extreme-example configuration, RSI 15
and price 0 make `calculate_allocation` raise ZeroDivisionError (modelled
as `none`) instead of skipping, and a negative price yields a negative
quantity, which the caller's `qty == 0` guard does not skip. -/
theorem C9_price_guard_missing :
    calculate_allocation cfgEx 15 0 = none
    ∧ calculate_allocation cfgEx 15 (-50) = some (2000, -40) := by
  norm_num [calculate_allocation, cfgEx]

/-- Claim C10: when listing brokerage positions raises,
`fetch_alpaca_positions` returns the empty mapping, indistinguishable
from a truly empty account, and reconciliation then issues a delete
intent for every local symbol and nothing else. -/
theorem C10_fetch_error_deletes_all (α : Type) [DecidableEq α] (e : String)
    (L : Ledger α) :
    fetch_alpaca_positions (Except.error e) = ([] : Ledger α)
    ∧ fetch_alpaca_positions (Except.error e)
        = fetch_alpaca_positions (Except.ok ([] : Ledger α))
    ∧ reconcile_portfolio L (fetch_alpaca_positions (Except.error e))
        = ([], [], L.map Prod.fst) := by
  refine ⟨rfl, rfl, ?_⟩
  unfold reconcile_portfolio fetch_alpaca_positions reconcileUpdates
    reconcileInserts reconcileDeletes
  simp [lookupSym]

/-- Claim C1: the reconciler classifies symbols into update intents
(exactly the symbols in both mappings whose qty differs or whose average
price differs by more than 1e-6, carrying old and new values), insert
intents (exactly the external-only symbols) and delete intents (exactly
the local-only symbols), pairwise disjoint. -/
theorem C1_reconcile_classification (α : Type) [DecidableEq α]
    (L E : Ledger α) (hE : (E.map Prod.fst).Nodup) :
    (∀ s lp ep, (s, lp, ep) ∈ reconcileUpdates L E ↔
      (lookupSym s L = some lp ∧ lookupSym s E = some ep ∧ needsUpdate lp ep))
    ∧ (∀ s ep, (s, ep) ∈ reconcileInserts L E ↔
      (lookupSym s E = some ep ∧ lookupSym s L = none))
    ∧ (∀ s, s ∈ reconcileDeletes L E ↔
      ((lookupSym s L).isSome ∧ lookupSym s E = none))
    ∧ (∀ s, s ∈ (reconcileUpdates L E).map (fun t => t.1) →
      (lookupSym s L).isSome ∧ (lookupSym s E).isSome)
    ∧ (∀ s, ¬(s ∈ (reconcileUpdates L E).map (fun t => t.1)
        ∧ s ∈ (reconcileInserts L E).map Prod.fst))
    ∧ (∀ s, ¬(s ∈ (reconcileUpdates L E).map (fun t => t.1)
        ∧ s ∈ reconcileDeletes L E))
    ∧ (∀ s, ¬(s ∈ (reconcileInserts L E).map Prod.fst
        ∧ s ∈ reconcileDeletes L E)) := by
  have hU : ∀ s lp ep, (s, lp, ep) ∈ reconcileUpdates L E ↔
      (lookupSym s L = some lp ∧ lookupSym s E = some ep ∧
        needsUpdate lp ep) := by
    intro s lp ep
    constructor
    · intro h
      obtain ⟨pr, hpr, hf⟩ := List.mem_filterMap.mp h
      obtain ⟨t, ep2⟩ := pr
      cases hL2 : lookupSym t L with
      | none => simp [reconcileUpdates, hL2] at hf
      | some lp2 =>
        simp only [hL2] at hf
        by_cases hnu : needsUpdate lp2 ep2
        · rw [if_pos hnu] at hf
          simp only [Option.some.injEq, Prod.mk.injEq] at hf
          obtain ⟨rfl, rfl, rfl⟩ := hf
          exact ⟨hL2, lookupSym_eq_of_mem_nodup hE hpr, hnu⟩
        · rw [if_neg hnu] at hf
          exact absurd hf (by simp)
    · rintro ⟨hL2, hE2, hnu⟩
      exact List.mem_filterMap.mpr
        ⟨(s, ep), mem_of_lookupSym hE2, by simp [hL2, hnu]⟩
  have hI : ∀ s ep, (s, ep) ∈ reconcileInserts L E ↔
      (lookupSym s E = some ep ∧ lookupSym s L = none) := by
    intro s ep
    rw [reconcileInserts, List.mem_filter]
    constructor
    · rintro ⟨hm, hn⟩
      exact ⟨lookupSym_eq_of_mem_nodup hE hm,
        Option.isNone_iff_eq_none.mp (by simpa using hn)⟩
    · rintro ⟨hE2, hL2⟩
      exact ⟨mem_of_lookupSym hE2, by simp [hL2]⟩
  have hD : ∀ s, s ∈ reconcileDeletes L E ↔
      ((lookupSym s L).isSome ∧ lookupSym s E = none) := by
    intro s
    rw [reconcileDeletes]
    constructor
    · intro h
      obtain ⟨pr, hpr, hfst⟩ := List.mem_map.mp h
      obtain ⟨t, v⟩ := pr
      obtain rfl : t = s := hfst
      obtain ⟨hm, hn⟩ := List.mem_filter.mp hpr
      exact ⟨lookupSym_isSome_of_mem hm,
        Option.isNone_iff_eq_none.mp (by simpa using hn)⟩
    · rintro ⟨hs, hn⟩
      obtain ⟨v, hv⟩ := Option.isSome_iff_exists.mp hs
      exact List.mem_map.mpr
        ⟨(s, v), List.mem_filter.mpr ⟨mem_of_lookupSym hv, by simp [hn]⟩, rfl⟩
  have hUm : ∀ s, s ∈ (reconcileUpdates L E).map (fun t => t.1) →
      (lookupSym s L).isSome ∧ (lookupSym s E).isSome := by
    intro s h
    obtain ⟨t, ht, hfst⟩ := List.mem_map.mp h
    obtain ⟨t1, lp, ep⟩ := t
    obtain rfl : t1 = s := hfst
    obtain ⟨h1, h2, _⟩ := (hU t1 lp ep).mp ht
    exact ⟨by simp [h1], by simp [h2]⟩
  have hIm : ∀ s, s ∈ (reconcileInserts L E).map Prod.fst →
      lookupSym s L = none := by
    intro s h
    obtain ⟨t, ht, hfst⟩ := List.mem_map.mp h
    obtain ⟨t1, ep⟩ := t
    obtain rfl : t1 = s := hfst
    exact ((hI t1 ep).mp ht).2
  refine ⟨hU, hI, hD, hUm, ?_, ?_, ?_⟩
  · rintro s ⟨h1, h2⟩
    have ha := (hUm s h1).1
    rw [hIm s h2] at ha
    simp at ha
  · rintro s ⟨h1, h2⟩
    have ha := (hUm s h1).2
    rw [((hD s).mp h2).2] at ha
    simp at ha
  · rintro s ⟨h1, h2⟩
    have ha := ((hD s).mp h2).1
    rw [hIm s h1] at ha
    simp at ha

/-- Witness for C1 on a concrete pair of mappings. -/
theorem C1_reconcile_classification_witness :
    (([((1 : ℕ), (⟨3, 10⟩ : Pos)), (3, ⟨4, 7⟩)] : Ledger ℕ).map
      Prod.fst).Nodup
    ∧ ((2 : ℕ) ∈ reconcileDeletes
        ([(1, ⟨2, 10⟩), (2, ⟨1, 5⟩)] : Ledger ℕ)
        ([(1, ⟨3, 10⟩), (3, ⟨4, 7⟩)] : Ledger ℕ) ↔
      ((lookupSym 2 ([(1, ⟨2, 10⟩), (2, ⟨1, 5⟩)] : Ledger ℕ)).isSome ∧
        lookupSym 2 ([(1, ⟨3, 10⟩), (3, ⟨4, 7⟩)] : Ledger ℕ) = none)) :=
  ⟨by decide,
    (C1_reconcile_classification ℕ
      [(1, ⟨2, 10⟩), (2, ⟨1, 5⟩)] [(1, ⟨3, 10⟩), (3, ⟨4, 7⟩)]
      (by decide)).2.2.1 2⟩

/-- Claim C8: applying every intent of one reconciliation run and
reconciling again against the unchanged external snapshot produces zero
update, insert and delete intents. -/
theorem C8_reconcile_idempotent (α : Type) [DecidableEq α] (L E : Ledger α)
    (hE : (E.map Prod.fst).Nodup) :
    reconcile_portfolio (applyReconcile L E) E = ([], [], []) := by
  have hlook : ∀ s : α, lookupSym s (applyReconcile L E) =
      match lookupSym s L, lookupSym s E with
      | some lp, some ep => some (if needsUpdate lp ep then ep else lp)
      | none, some ep => some ep
      | _, none => none := by
    intro s
    rw [applyReconcile, lookupSym_append, applyUpdates_lookupSym,
      lookupSym_filter_key (fun a => (lookupSym a L).isNone) E s]
    cases hL2 : lookupSym s L <;> cases hE2 : lookupSym s E <;>
      simp [hL2, hE2, Option.or]
  have hrefl : ∀ ep : Pos, ¬needsUpdate ep ep := by
    intro ep h
    rcases h with h | h
    · exact h rfl
    · rw [sub_self, abs_zero] at h
      exact absurd h (by norm_num [eps])
  have hkey : ∀ pr : α × Pos, pr ∈ E → ∃ lp2,
      lookupSym pr.1 (applyReconcile L E) = some lp2 ∧
        ¬needsUpdate lp2 pr.2 := by
    intro pr hpr
    have hE2 : lookupSym pr.1 E = some pr.2 :=
      lookupSym_eq_of_mem_nodup hE (by simpa using hpr)
    rw [hlook pr.1, hE2]
    cases hL2 : lookupSym pr.1 L with
    | none => exact ⟨pr.2, rfl, hrefl pr.2⟩
    | some lp =>
      by_cases hnu : needsUpdate lp pr.2
      · exact ⟨pr.2, by simp [hnu], hrefl pr.2⟩
      · exact ⟨lp, by simp [hnu], hnu⟩
  simp only [reconcile_portfolio, Prod.mk.injEq]
  refine ⟨?_, ?_, ?_⟩
  · rw [reconcileUpdates, List.filterMap_eq_nil_iff]
    intro pr hpr
    obtain ⟨lp2, hl, hnu⟩ := hkey pr hpr
    rw [hl]
    simp [hnu]
  · rw [reconcileInserts, List.filter_eq_nil_iff]
    intro pr hpr
    obtain ⟨lp2, hl, _⟩ := hkey pr hpr
    simp [hl]
  · rw [reconcileDeletes, List.map_eq_nil_iff, List.filter_eq_nil_iff]
    intro x hx
    rw [applyReconcile] at hx
    rcases List.mem_append.mp hx with h1 | h1
    · have h3 := (mem_applyUpdates h1).1
      rw [Option.isNone_iff_eq_none]
      exact Option.ne_none_iff_isSome.mpr h3
    · have hmem : x ∈ E := List.mem_of_mem_filter h1
      have h4 : (x.1, x.2) ∈ E := by simpa using hmem
      rw [Option.isNone_iff_eq_none]
      exact Option.ne_none_iff_isSome.mpr (lookupSym_isSome_of_mem h4)

/-- Witness for C8 on a concrete pair of mappings. -/
theorem C8_reconcile_idempotent_witness :
    (([((1 : ℕ), (⟨3, 10⟩ : Pos)), (3, ⟨4, 7⟩)] : Ledger ℕ).map
      Prod.fst).Nodup
    ∧ reconcile_portfolio
        (applyReconcile ([(1, ⟨2, 10⟩), (2, ⟨1, 5⟩)] : Ledger ℕ)
          ([(1, ⟨3, 10⟩), (3, ⟨4, 7⟩)] : Ledger ℕ))
        ([(1, ⟨3, 10⟩), (3, ⟨4, 7⟩)] : Ledger ℕ) = ([], [], []) :=
  ⟨by decide,
    C8_reconcile_idempotent ℕ [(1, ⟨2, 10⟩), (2, ⟨1, 5⟩)]
      [(1, ⟨3, 10⟩), (3, ⟨4, 7⟩)] (by decide)⟩

/-- Claim C7: under positive fill quantity and non-negative fill price,
a position row written by the position updater satisfies the invariant
(qty strictly positive, avg_price non-negative), and every row of the
ledger after a reconciliation run does too, provided the previous ledger
and the external snapshot satisfy it. -/
theorem C7_invariant_preserved (α : Type) [DecidableEq α] (L E : Ledger α)
    (hL : ∀ x ∈ L, PosOK x.2) (hE : ∀ x ∈ E, PosOK x.2)
    (pos : Option Pos) (q : ℤ) (price : ℚ) (side : String)
    (hpos : ∀ p, pos = some p → PosOK p) (hq : 0 < q) (hprice : 0 ≤ price) :
    (∀ p2, (update_portfolio_position pos q price side).2 = some p2 →
      PosOK p2)
    ∧ (∀ x ∈ applyReconcile L E, PosOK x.2) := by
  constructor
  · intro p2 hp2
    cases pos with
    | none =>
      by_cases hb : side = "buy"
      · simp only [update_portfolio_position, if_pos hb,
          Option.some.injEq] at hp2
        subst hp2
        exact ⟨hq, hprice⟩
      · simp [update_portfolio_position, hb] at hp2
    | some p =>
      have hP := hpos p rfl
      by_cases hb : side = "buy"
      · by_cases hz : p.qty + q = 0
        · simp only [update_portfolio_position, if_pos hb, if_pos hz,
            Option.some.injEq] at hp2
          subst hp2
          exact hP
        · simp only [update_portfolio_position, if_pos hb, if_neg hz,
            Option.some.injEq] at hp2
          subst hp2
          refine ⟨by show (0 : ℤ) < p.qty + q; omega,
            div_nonneg (add_nonneg ?_ ?_) ?_⟩
          · exact mul_nonneg (by exact_mod_cast hP.1.le) hP.2
          · exact mul_nonneg (by exact_mod_cast hq.le) hprice
          · exact_mod_cast (by omega : (0 : ℤ) ≤ p.qty + q)
      · by_cases hs : side = "sell"
        · by_cases hle : p.qty - q ≤ 0
          · simp [update_portfolio_position, hb, hs, hle] at hp2
          · simp only [update_portfolio_position, if_neg hb, if_pos hs,
              if_neg hle, Option.some.injEq] at hp2
            subst hp2
            exact ⟨by show (0 : ℤ) < p.qty - q; omega, hP.2⟩
        · simp only [update_portfolio_position, if_neg hb, if_neg hs,
            Option.some.injEq] at hp2
          subst hp2
          exact hP
  · intro x hx
    rw [applyReconcile] at hx
    rcases List.mem_append.mp hx with h1 | h1
    · rcases (mem_applyUpdates h1).2 with h2 | h2
      · exact hE x h2
      · exact hL x h2
    · exact hE x (List.mem_of_mem_filter h1)

theorem diffAux_length (prev : ℚ) (l : List ℚ) :
    (diffAux prev l).length = l.length := by
  induction l generalizing prev with
  | nil => rfl
  | cons y ys ih => simp [diffAux, ih]

theorem diff_length (s : List ℚ) : (diff s).length = s.length := by
  cases s with
  | nil => rfl
  | cons x xs => simp [diff, diffAux_length]

theorem diffAux_getElem? (prev : ℚ) (l : List ℚ) (k : ℕ) (hk : k < l.length) :
    (diffAux prev l)[k]? = some (some (l.getD k 0 - (prev :: l).getD k 0)) := by
  induction l generalizing prev k with
  | nil => simp at hk
  | cons y ys ih =>
    cases k with
    | zero => simp [diffAux]
    | succ k2 =>
      simp only [diffAux, List.getElem?_cons_succ]
      rw [ih y k2 (by simpa using hk)]
      simp [List.getD_cons_succ]

theorem diff_getElem?_zero (s : List ℚ) (h : s ≠ []) : (diff s)[0]? = some none := by
  cases s with
  | nil => exact absurd rfl h
  | cons x xs => simp [diff]

theorem diff_getElem?_pos (s : List ℚ) (j : ℕ) (h1 : 1 ≤ j)
    (h2 : j < s.length) : (diff s)[j]? = some (some (deltaD s j)) := by
  cases s with
  | nil => simp at h2
  | cons x xs =>
    obtain ⟨j2, rfl⟩ : ∃ j2, j = j2 + 1 := ⟨j - 1, by omega⟩
    simp only [diff, List.getElem?_cons_succ]
    rw [diffAux_getElem? x xs j2 (by simpa using h2)]
    simp [deltaD, List.getD_cons_succ]

theorem diffMap_length (f : ℚ → ℚ) (s : List ℚ) :
    ((diff s).map (Option.map f)).length = s.length := by
  rw [List.length_map, diff_length]

theorem diffMap_getElem?_pos (f : ℚ → ℚ) (s : List ℚ) (j : ℕ) (h1 : 1 ≤ j)
    (h2 : j < s.length) :
    ((diff s).map (Option.map f))[j]? = some (some (f (deltaD s j))) := by
  rw [List.getElem?_map, diff_getElem?_pos s j h1 h2]
  rfl

theorem diffMap_getElem?_zero (f : ℚ → ℚ) (s : List ℚ) (h : s ≠ []) :
    ((diff s).map (Option.map f))[0]? = some none := by
  rw [List.getElem?_map, diff_getElem?_zero s h]
  rfl

theorem rollingMean_length (p : ℕ) (l : List (Option ℚ)) :
    (rollingMean p l).length = l.length := by
  rw [rollingMean, List.length_map, List.length_range]

theorem rollingMean_getElem? (p : ℕ) (l : List (Option ℚ)) (i : ℕ)
    (h : i < l.length) : (rollingMean p l)[i]? = some (rollAt p l i) := by
  rw [rollingMean, List.getElem?_map, List.getElem?_range h]
  rfl

theorem rollAt_diff_map (f : ℚ → ℚ) (s : List ℚ) (p i : ℕ) (hp : 1 ≤ p)
    (hpi : p ≤ i) (hin : i < s.length) :
    rollAt p ((diff s).map (Option.map f)) i
      = some ((((List.range p).map
          fun k => f (deltaD s (i + 1 - p + k))).sum) / (p : ℚ)) := by
  have hnot : ¬(i + 1 < p) := by omega
  have hw : (((diff s).map (Option.map f)).drop (i + 1 - p)).take p
      = (List.range p).map fun k => some (f (deltaD s (i + 1 - p + k))) := by
    apply List.ext_getElem?
    intro n
    by_cases hn : n < p
    · rw [List.getElem?_take, if_pos hn, List.getElem?_drop]
      rw [diffMap_getElem?_pos f s (i + 1 - p + n) (by omega) (by omega)]
      rw [List.getElem?_map, List.getElem?_range hn]
      rfl
    · rw [List.getElem?_take, if_neg hn]
      exact (List.getElem?_eq_none (by simp; omega)).symm
  simp only [rollAt, if_neg hnot]
  rw [hw]
  have hall : ((List.range p).map
      fun k => some (f (deltaD s (i + 1 - p + k)))).all Option.isSome = true := by
    rw [List.all_eq_true]
    intro x hx
    obtain ⟨k, hk, rfl⟩ := List.mem_map.mp hx
    rfl
  rw [if_pos hall, List.filterMap_map]
  have hcomp : (id ∘ fun k => some (f (deltaD s (i + 1 - p + k))))
      = (some ∘ fun k => f (deltaD s (i + 1 - p + k))) := rfl
  rw [hcomp, List.filterMap_eq_map]

theorem rollAt_diff_map_small (f : ℚ → ℚ) (s : List ℚ) (p i : ℕ)
    (hip : i < p) (hin : i < s.length) :
    rollAt p ((diff s).map (Option.map f)) i = none := by
  by_cases h1 : i + 1 < p
  · simp only [rollAt, if_pos h1]
  · have h0 : i + 1 - p = 0 := by omega
    have hne : s ≠ [] := by
      intro h
      rw [h] at hin
      simp at hin
    have hw0 : ((((diff s).map (Option.map f)).drop (i + 1 - p)).take p)[0]?
        = some none := by
      rw [List.getElem?_take, if_pos (by omega : 0 < p), List.getElem?_drop, h0]
      simpa using diffMap_getElem?_zero f s hne
    simp only [rollAt, if_neg h1]
    cases hall : ((((diff s).map (Option.map f)).drop (i + 1 - p)).take p).all
        Option.isSome with
    | false => simp
    | true =>
      exfalso
      have := List.all_eq_true.mp hall none (List.getElem?_mem hw0)
      simp at this

theorem rollDiff_getElem?_eq (f : ℚ → ℚ) (s : List ℚ) (p i : ℕ) (hp : 1 ≤ p)
    (hpi : p ≤ i) (hin : i < s.length) :
    (rollingMean p ((diff s).map (Option.map f)))[i]?
      = some (some ((((List.range p).map
          fun k => f (deltaD s (i + 1 - p + k))).sum) / (p : ℚ))) := by
  rw [rollingMean_getElem? p _ i (by rw [diffMap_length]; exact hin),
    rollAt_diff_map f s p i hp hpi hin]

theorem rollDiff_getElem?_small (f : ℚ → ℚ) (s : List ℚ) (p i : ℕ)
    (hip : i < p) (hin : i < s.length) :
    (rollingMean p ((diff s).map (Option.map f)))[i]? = some none := by
  rw [rollingMean_getElem? p _ i (by rw [diffMap_length]; exact hin),
    rollAt_diff_map_small f s p i hip hin]

theorem sum_pos_of_mem_nonneg (l : List ℚ) (h0 : ∀ x ∈ l, 0 ≤ x) (x : ℚ)
    (hx : x ∈ l) (hxpos : 0 < x) : 0 < l.sum := by
  induction l with
  | nil => simp at hx
  | cons a t ih =>
    rw [List.sum_cons]
    rcases List.mem_cons.mp hx with rfl | hmem
    · have ht : 0 ≤ t.sum :=
        List.sum_nonneg fun y hy => h0 y (List.mem_cons_of_mem _ hy)
      linarith
    · have ha : 0 ≤ a := h0 a (List.mem_cons_self _ _)
      have := ih (fun y hy => h0 y (List.mem_cons_of_mem _ hy)) hmem
      linarith

theorem all_zero_of_sum_eq_zero (l : List ℚ) (h0 : ∀ x ∈ l, 0 ≤ x)
    (hs : l.sum = 0) : ∀ x ∈ l, x = 0 := by
  induction l with
  | nil => simp
  | cons a t ih =>
    rw [List.sum_cons] at hs
    have ha : 0 ≤ a := h0 a (List.mem_cons_self _ _)
    have ht : 0 ≤ t.sum :=
      List.sum_nonneg fun y hy => h0 y (List.mem_cons_of_mem _ hy)
    intro x hx
    rcases List.mem_cons.mp hx with rfl | hmem
    · linarith
    · exact ih (fun y hy => h0 y (List.mem_cons_of_mem _ hy)) (by linarith) x hmem

theorem rsi_length (s : List ℚ) (p : ℕ) : (rsi s p).length = s.length := by
  rw [rsi, List.length_zipWith, gainList, lossList, rollingMean_length,
    rollingMean_length, diffMap_length, diffMap_length, min_self]

theorem rsi_getElem?_lt (s : List ℚ) (p i : ℕ) (hip : i < p)
    (hin : i < s.length) : (rsi s p)[i]? = some none := by
  rw [rsi, List.getElem?_zipWith, gainList, lossList,
    rollDiff_getElem?_small clipGain s p i hip hin,
    rollDiff_getElem?_small clipLoss s p i hip hin]
  rfl

theorem rsi_getElem?_ge (s : List ℚ) (p i : ℕ) (hp : 1 ≤ p) (hpi : p ≤ i)
    (hin : i < s.length) :
    (rsi s p)[i]? = some (rsiPoint
      (some ((((List.range p).map
        fun k => clipGain (deltaD s (i + 1 - p + k))).sum) / (p : ℚ)))
      (some ((((List.range p).map
        fun k => clipLoss (deltaD s (i + 1 - p + k))).sum) / (p : ℚ)))) := by
  rw [rsi, List.getElem?_zipWith, gainList, lossList,
    rollDiff_getElem?_eq clipGain s p i hp hpi hin,
    rollDiff_getElem?_eq clipLoss s p i hp hpi hin]

theorem rsiPoint_eq_none_iff (g l : ℚ) :
    rsiPoint (some g) (some l) = none ↔ (l = 0 ∧ g = 0) := by
  by_cases hl : l = 0
  · by_cases hg : g = 0
    · simp [rsiPoint, hl, hg]
    · simp [rsiPoint, hl, hg]
  · simp [rsiPoint, hl]

/-- Counterexample to claim C3 as stated: on the monotonically
non-decreasing (constant) series 5, 5, 5 with period 2, index 2 has a full
window whose rolling loss average is 0, yet the RSI entry is NaN (the
float `rs` is `0.0 / 0.0 = NaN`), not 100. -/
theorem C3_rsi_counterexample :
    (lossList [(5 : ℚ), 5, 5] 2)[2]? = some (some 0)
    ∧ (rsi [(5 : ℚ), 5, 5] 2)[2]? = some none := by
  have hSl : ((List.range 2).map
      fun k => clipLoss (deltaD [(5 : ℚ), 5, 5] (2 + 1 - 2 + k))).sum = 0 := by
    norm_num [List.range_succ, clipLoss, deltaD]
  have hSg : ((List.range 2).map
      fun k => clipGain (deltaD [(5 : ℚ), 5, 5] (2 + 1 - 2 + k))).sum = 0 := by
    norm_num [List.range_succ, clipGain, deltaD]
  constructor
  · rw [lossList,
      rollDiff_getElem?_eq clipLoss [(5 : ℚ), 5, 5] 2 2 (by norm_num)
        (by norm_num) (by decide), hSl, zero_div]
  · rw [rsi_getElem?_ge [(5 : ℚ), 5, 5] 2 2 (by norm_num) (by norm_num)
      (by decide), hSl, hSg, zero_div]
    norm_num [rsiPoint]

/-- Claim C3 (amended): at a full-window index whose window is
non-decreasing with at least one strict increase, the rolling loss
average is exactly 0 and the RSI is exactly 100 (no division-by-zero
artifact); a window that is non-decreasing but constant instead makes
both rolling averages 0 and the RSI entry NaN. -/
theorem C3_rsi_no_loss_is_hundred (s : List ℚ) (p i : ℕ) (hp : 1 ≤ p)
    (hpi : p ≤ i) (hin : i < s.length)
    (mono : ∀ j ∈ List.range (i + 1), i + 1 - p ≤ j →
      s.getD (j - 1) 0 ≤ s.getD j 0)
    (strict : ∃ j, j ∈ List.range (i + 1) ∧ i + 1 - p ≤ j ∧
      s.getD (j - 1) 0 < s.getD j 0) :
    (lossList s p)[i]? = some (some 0)
    ∧ (rsi s p)[i]? = some (some 100) := by
  have hpne : (p : ℚ) ≠ 0 := Nat.cast_ne_zero.mpr (by omega)
  have hSl : ((List.range p).map
      fun k => clipLoss (deltaD s (i + 1 - p + k))).sum = 0 := by
    apply List.sum_eq_zero
    intro x hx
    obtain ⟨k, hk, rfl⟩ := List.mem_map.mp hx
    have hkp : k < p := List.mem_range.mp hk
    have hd : 0 ≤ deltaD s (i + 1 - p + k) := by
      have hj := mono (i + 1 - p + k) (List.mem_range.mpr (by omega)) (by omega)
      simpa [deltaD] using sub_nonneg.mpr hj
    simpa [clipLoss] using max_eq_right (neg_nonpos.mpr hd)
  have hSgpos : 0 < ((List.range p).map
      fun k => clipGain (deltaD s (i + 1 - p + k))).sum := by
    obtain ⟨j, hjr, hjge, hjlt⟩ := strict
    have hjlt2 : j < i + 1 := List.mem_range.mp hjr
    have hdpos : 0 < deltaD s j := by simpa [deltaD] using sub_pos.mpr hjlt
    refine sum_pos_of_mem_nonneg _ (fun x hx => ?_) (clipGain (deltaD s j))
      ?_ ?_
    · obtain ⟨k, hk, rfl⟩ := List.mem_map.mp hx
      simp [clipGain, le_max_right]
    · refine List.mem_map.mpr ⟨j - (i + 1 - p),
        List.mem_range.mpr (by omega), ?_⟩
      have hje : i + 1 - p + (j - (i + 1 - p)) = j := by omega
      rw [hje]
    · simpa [clipGain] using lt_of_lt_of_le hdpos (le_max_left (deltaD s j) 0)
  constructor
  · rw [lossList, rollDiff_getElem?_eq clipLoss s p i hp hpi hin, hSl,
      zero_div]
  · rw [rsi_getElem?_ge s p i hp hpi hin, hSl, zero_div]
    have hne : (((List.range p).map
        fun k => clipGain (deltaD s (i + 1 - p + k))).sum / (p : ℚ)) ≠ 0 :=
      div_ne_zero (ne_of_gt hSgpos) hpne
    simp [rsiPoint, hne]

/-- Witness for the amended C3 on the strictly increasing series 1, 2, 3. -/
theorem C3_rsi_no_loss_is_hundred_witness :
    (lossList [(1 : ℚ), 2, 3] 2)[2]? = some (some 0)
    ∧ (rsi [(1 : ℚ), 2, 3] 2)[2]? = some (some 100) :=
  C3_rsi_no_loss_is_hundred [(1 : ℚ), 2, 3] 2 2 (by norm_num) (by norm_num)
    (by decide) (by decide) ⟨1, by decide, by decide, by decide⟩

/-- Counterexample to claim C4 as stated: with period 2 on the series
1, 2, 3, the entry at index N - 1 = 1 is NaN (the pandas `diff` makes
index 0 NaN, so the rolling mean is NaN through index N), though the
claim says every entry from index N - 1 on is defined. -/
theorem C4_rsi_counterexample :
    (rsi [(1 : ℚ), 2, 3] 2).length = 3
    ∧ (rsi [(1 : ℚ), 2, 3] 2)[1]? = some none := by
  constructor
  · rw [rsi_length]
    rfl
  · exact rsi_getElem?_lt [(1 : ℚ), 2, 3] 2 1 (by norm_num) (by decide)

/-- Claim C4 (amended): the RSI series has the length of the input; the
first N entries (indices below N) are undefined; an entry at an index
from N on is undefined exactly when every delta of its trailing window is
zero (constant window), hence defined whenever some delta is nonzero; and
a series of length at most N (in particular shorter than N) produces no
defined entry at all. -/
theorem C4_rsi_definedness (s : List ℚ) (p : ℕ) (hp : 1 ≤ p) :
    (rsi s p).length = s.length
    ∧ (∀ i, i < p → i < s.length → (rsi s p)[i]? = some none)
    ∧ (∀ i, p ≤ i → i < s.length →
        ((rsi s p)[i]? = some none ↔
          ∀ j ∈ List.range (i + 1), i + 1 - p ≤ j → deltaD s j = 0))
    ∧ (s.length ≤ p → ∀ x ∈ rsi s p, x = none) := by
  refine ⟨rsi_length s p,
    fun i hip hin => rsi_getElem?_lt s p i hip hin, ?_, ?_⟩
  · intro i hpi hin
    have hpne : (p : ℚ) ≠ 0 := Nat.cast_ne_zero.mpr (by omega)
    rw [rsi_getElem?_ge s p i hp hpi hin]
    simp only [Option.some.injEq]
    rw [rsiPoint_eq_none_iff, div_eq_zero_iff, div_eq_zero_iff]
    simp only [hpne, or_false]
    have hgain0 : ∀ x ∈ (List.range p).map
        (fun k => clipGain (deltaD s (i + 1 - p + k))), 0 ≤ x := by
      intro x hx
      obtain ⟨k, hk, rfl⟩ := List.mem_map.mp hx
      simp [clipGain, le_max_right]
    have hloss0 : ∀ x ∈ (List.range p).map
        (fun k => clipLoss (deltaD s (i + 1 - p + k))), 0 ≤ x := by
      intro x hx
      obtain ⟨k, hk, rfl⟩ := List.mem_map.mp hx
      simp [clipLoss, le_max_right]
    constructor
    · rintro ⟨hSl, hSg⟩ j hjr hjge
      have hjlt : j < i + 1 := List.mem_range.mp hjr
      have hje : i + 1 - p + (j - (i + 1 - p)) = j := by omega
      have hg : clipGain (deltaD s j) = 0 := by
        refine all_zero_of_sum_eq_zero _ hgain0 hSg _ ?_
        exact List.mem_map.mpr ⟨j - (i + 1 - p),
          List.mem_range.mpr (by omega), by rw [hje]⟩
      have hl : clipLoss (deltaD s j) = 0 := by
        refine all_zero_of_sum_eq_zero _ hloss0 hSl _ ?_
        exact List.mem_map.mpr ⟨j - (i + 1 - p),
          List.mem_range.mpr (by omega), by rw [hje]⟩
      have h1 : deltaD s j ≤ 0 := by
        have := le_max_left (deltaD s j) 0
        simp only [clipGain] at hg
        linarith
      have h2 : 0 ≤ deltaD s j := by
        have := le_max_left (-(deltaD s j)) 0
        simp only [clipLoss] at hl
        linarith
      linarith
    · intro hall
      constructor
      · apply List.sum_eq_zero
        intro x hx
        obtain ⟨k, hk, rfl⟩ := List.mem_map.mp hx
        have hkp : k < p := List.mem_range.mp hk
        have hd : deltaD s (i + 1 - p + k) = 0 :=
          hall _ (List.mem_range.mpr (by omega)) (by omega)
        simp [clipLoss, hd]
      · apply List.sum_eq_zero
        intro x hx
        obtain ⟨k, hk, rfl⟩ := List.mem_map.mp hx
        have hkp : k < p := List.mem_range.mp hk
        have hd : deltaD s (i + 1 - p + k) = 0 :=
          hall _ (List.mem_range.mpr (by omega)) (by omega)
        simp [clipGain, hd]
  · intro hlen x hx
    obtain ⟨n, hn⟩ := List.mem_iff_getElem?.mp hx
    have hnlt : n < (rsi s p).length := by
      by_contra hge
      rw [List.getElem?_eq_none (by omega)] at hn
      exact absurd hn (by simp)
    rw [rsi_length] at hnlt
    have h2 := rsi_getElem?_lt s p n (by omega) hnlt
    rw [hn] at h2
    exact Option.some.inj h2

/-- Witness for the amended C4 at a concrete series and period. -/
theorem C4_rsi_definedness_witness :
    (rsi [(1 : ℚ), 2, 3] 2).length = [(1 : ℚ), 2, 3].length :=
  (C4_rsi_definedness [(1 : ℚ), 2, 3] 2 (by norm_num)).1

/-- Witness for C7 at a concrete buy fill and a concrete reconciliation. -/
theorem C7_invariant_preserved_witness :
    PosOK ⟨(5 : ℤ) + 3,
      (((5 : ℤ) : ℚ) * 10 + ((3 : ℤ) : ℚ) * 20) / (((5 : ℤ) + 3 : ℤ) : ℚ)⟩
    ∧ PosOK ⟨3, 10⟩ :=
  ⟨(C7_invariant_preserved ℕ [(1, ⟨2, 10⟩)] [(1, ⟨3, 10⟩)]
      (by decide) (by decide) (some ⟨5, 10⟩) 3 20 buy
      (fun p h => (Option.some.inj h) ▸ (by decide : PosOK ⟨5, 10⟩))
      (by decide) (by decide)).1 _ rfl,
   (C7_invariant_preserved ℕ [(1, ⟨2, 10⟩)] [(1, ⟨3, 10⟩)]
      (by decide) (by decide) (some ⟨5, 10⟩) 3 20 buy
      (fun p h => (Option.some.inj h) ▸ (by decide : PosOK ⟨5, 10⟩))
      (by decide) (by decide)).2 (1, ⟨3, 10⟩) (by decide)⟩

end Lunchbox
